import Mathlib

/-!
# Verification of the QuDAG support-agent system

Shallow embedding of the multi-agent support pipeline:

* `src/src/agents/qudag.system.ts` — decision record, policy engine,
  the four concrete agents (Triage, Summarization, IntentDetection,
  AutoReply) and `QuDAGOrchestrator.processRequest`;
* the swarm orchestrator source file — `QuDAGSwarmOrchestrator`:
  `calculateConsensus`, `updateExecutionOrder`, `executeGraph`.

Text is modelled as `List Char` (JS strings), numeric confidences as `ℚ`
(the agent arithmetic is exact decimal), and the consensus score as `ℝ`
(it takes a square root).  A JS exception inside a modelled call is an
`Option` value `none`.
-/

namespace QuDAG

/-- Agent-relevant configuration (`config.agent` in `environment.ts`). -/
structure Config where
  confidenceThreshold : ℚ
  autoReplyEnabled : Bool
  humanReviewRequired : Bool
deriving Repr, DecidableEq

/-- The uniform decision record every agent produces (`AgentDecision`).
`metadata` models the kind-specific JS metadata object as an association
list; the intent agent stores its detected type under the key `"type"`.
The `reasoning` display string carries no behaviour and is omitted. -/
structure AgentDecision where
  action : String
  confidence : ℚ
  requiresHumanApproval : Bool
  suggestedResponse : Option (List Char) := none
  metadata : List (String × String) := []
deriving Repr, DecidableEq

/-- Parameters of a policy rule (`PolicyRule.parameters`): `value` feeds
`set_confidence`, `entries` feeds `add_metadata`. -/
structure PolicyParams where
  value : ℚ := 0
  entries : List (String × String) := []

/-- A policy rule: the JS source compiles `condition` from a string with
`new Function`; here it is a Lean predicate over the agent input and the
tentative decision, returning `none` when the compiled code would throw. -/
structure PolicyRule (α : Type) where
  condition : α → AgentDecision → Option Bool
  action : String
  parameters : PolicyParams := {}

/-- An agent policy (`AgentPolicy`). -/
structure AgentPolicy (α : Type) where
  rules : List (PolicyRule α)
  priority : Int := 0
  enabled : Bool := true

/-- `BaseAgent.evaluateCondition`: a condition whose evaluation throws is
treated as false (the catch branch logs and returns `false`). -/
def evaluateCondition {α : Type} (cond : α → AgentDecision → Option Bool)
    (input : α) (decision : AgentDecision) : Bool :=
  (cond input decision).getD false

/-- Shallow merge of metadata objects, later keys win
(`{ ...decision.metadata, ...parameters }`). -/
def mergeMeta (old new : List (String × String)) : List (String × String) :=
  old.filter (fun p => ¬ new.any (fun q => q.1 = p.1)) ++ new

/-- `BaseAgent.applyAction`: the three recognised actions mutate the
decision; an unknown action leaves it unchanged (only a warning is
logged). -/
def applyAction (action : String) (decision : AgentDecision)
    (parameters : PolicyParams) : AgentDecision :=
  match action with
  | "require_human_approval" => { decision with requiresHumanApproval := true }
  | "set_confidence" => { decision with confidence := parameters.value }
  | "add_metadata" =>
      { decision with metadata := mergeMeta decision.metadata parameters.entries }
  | _ => decision

/-- Run the rules of one policy in order (`BaseAgent.checkPolicies`,
inner loop). -/
def runRules {α : Type} (input : α) : List (PolicyRule α) → AgentDecision → AgentDecision
  | [], decision => decision
  | rule :: rest, decision =>
      let decision' :=
        if evaluateCondition rule.condition input decision then
          applyAction rule.action decision rule.parameters
        else decision
      runRules input rest decision'

/-- `BaseAgent.checkPolicies`: every enabled policy's rules are applied in
list order (the stored list is kept sorted by descending priority by
`addPolicy`). -/
def checkPolicies {α : Type} (policies : List (AgentPolicy α)) (input : α)
    (decision : AgentDecision) : AgentDecision :=
  (policies.filter (·.enabled)).foldl (fun d p => runRules input p.rules d) decision

/-! ## Text utilities shared by the agents -/

/-- JS `text.toLowerCase()` on a character list. -/
def toLower (cs : List Char) : List Char := cs.map Char.toLower

/-- JS `haystack.includes(needle)`: substring containment. -/
def containsSub (needle hay : List Char) : Bool :=
  hay.tails.any (fun t => needle.isPrefixOf t)

/-- JS `s.trim()`: strip whitespace from both ends. -/
def trimChars (cs : List Char) : List Char :=
  (((cs.dropWhile Char.isWhitespace).reverse).dropWhile Char.isWhitespace).reverse

/-! ## TriageAgent -/

/-- `TriageAgent.categorize`: keyword scan of the lowercased
`subject ++ " " ++ body`, falling back to `general`. -/
def categorize (subject body : List Char) : List String :=
  let text := toLower (subject ++ [' '] ++ body)
  let cats :=
    (if containsSub "bug".toList text ∨ containsSub "error".toList text ∨
        containsSub "broken".toList text then ["bug"] else []) ++
    (if containsSub "feature".toList text ∨ containsSub "request".toList text ∨
        containsSub "enhancement".toList text then ["feature-request"] else []) ++
    (if containsSub "urgent".toList text ∨ containsSub "critical".toList text ∨
        containsSub "asap".toList text then ["urgent"] else []) ++
    (if containsSub "question".toList text ∨ containsSub "how to".toList text ∨
        containsSub "help".toList text then ["question"] else [])
  if cats = [] then ["general"] else cats

/-- `TriageAgent.prioritize`. -/
def prioritize (categories : List String) : String :=
  if "urgent" ∈ categories then "high"
  else if "bug" ∈ categories then "medium"
  else if "feature-request" ∈ categories then "low"
  else "normal"

/-- `TriageAgent.evaluateConfidence`. -/
def triageConfidence (categories : List String) (priority : String) : ℚ :=
  let c : ℚ := 1/2
  let c := if categories.length > 0 ∧ categories.headD "" ≠ "general" then c + 1/5 else c
  let c := if priority ≠ "normal" then c + 1/5 else c
  let c := if categories.length = 1 then c + 1/10 else c
  min c 1

/-- Input of `TriageAgent.process`. -/
structure TriageInput where
  subject : List Char
  body : List Char
  from_ : List Char := []
deriving Repr, DecidableEq

/-- `TriageAgent.process`. -/
def triageProcess (cfg : Config) (policies : List (AgentPolicy TriageInput))
    (input : TriageInput) : AgentDecision :=
  let categories := categorize input.subject input.body
  let priority := prioritize categories
  let confidence := triageConfidence categories priority
  let decision : AgentDecision :=
    { action := "triage"
      confidence := confidence
      requiresHumanApproval := decide (confidence < cfg.confidenceThreshold)
      metadata := [("categories", String.intercalate ", " categories),
                   ("priority", priority)] }
  checkPolicies policies input decision

/-! ## SummarizationAgent -/

/-- Characters ending a sentence in the regex `[^.!?]+[.!?]+`. -/
def isTerminator (c : Char) : Bool := c == '.' || c == '!' || c == '?'

/-- Recursion core of `splitSentences`, structurally recursive on a
fuel argument so that it stays kernel-computable; every recursive call
strictly shrinks the character list, so `fuel = cs.length` never runs
out. -/
def splitSentencesAux : Nat → List Char → List (List Char)
  | _, [] => []
  | 0, _ :: _ => []
  | fuel + 1, c :: cs =>
    if isTerminator c then splitSentencesAux fuel cs
    else
      let w := c :: cs.takeWhile (fun x => !isTerminator x)
      let rest := cs.dropWhile (fun x => !isTerminator x)
      let t := rest.takeWhile isTerminator
      let rest' := rest.dropWhile isTerminator
      if t = [] then [] else (w ++ t) :: splitSentencesAux fuel rest'

/-- `text.match(/[^.!?]+[.!?]+/g) || []`: greedy global matching — a run
of non-terminators followed by a run of terminators; characters outside
any match are skipped. -/
def splitSentences (cs : List Char) : List (List Char) :=
  splitSentencesAux cs.length cs

/-- The fixed importance keyword list of `scoreSentence`. -/
def importantWords : List (List Char) :=
  ["important".toList, "critical".toList, "urgent".toList, "bug".toList,
   "error".toList, "feature".toList, "request".toList, "issue".toList,
   "problem".toList]

/-- `SummarizationAgent.scoreSentence`: one point per keyword present in
the lowercased sentence, plus the inverse-length bonus
`1 / (length / 100) = 100 / length`. -/
def scoreSentence (s : List Char) : ℚ :=
  (importantWords.filter (fun w => containsSub w (toLower s))).length
    + 100 / (s.length : ℚ)

/-- Stable insertion keeping strictly-greater scores in front: an element
is placed after every earlier element of equal score, matching JS's
stable `sort((a, b) => b.score - a.score)`. -/
def insertByScore (x : List Char × ℚ) : List (List Char × ℚ) → List (List Char × ℚ)
  | [] => [x]
  | y :: ys => if x.2 > y.2 then x :: y :: ys else y :: insertByScore x ys

/-- Stable sort by descending score. -/
def sortByScoreDesc : List (List Char × ℚ) → List (List Char × ℚ)
  | [] => []
  | x :: xs => insertByScore x (sortByScoreDesc xs)

/-- JS `arr.join(' ')`. -/
def joinSpace : List (List Char) → List Char
  | [] => []
  | [s] => s
  | s :: rest => s ++ [' '] ++ joinSpace rest

/-- The top-3 sentences by score, trimmed and joined — the summary before
the truncation step of `SummarizationAgent.summarize`. -/
def joinedTop (text : List Char) : List Char :=
  let scored := (splitSentences text).map (fun s => (trimChars s, scoreSentence s))
  joinSpace (((sortByScoreDesc scored).take 3).map (·.1))

/-- `SummarizationAgent.summarize`: join the top-3 sentences, then
hard-truncate.  `summary.substring(0, maxLength - 3)` clamps a negative
end index to 0, which `Nat` subtraction reproduces. -/
def summarize (text : List Char) (maxLength : Nat) : List Char :=
  let summary := joinedTop text
  if summary.length > maxLength then summary.take (maxLength - 3) ++ "...".toList
  else summary

/-- `SummarizationAgent.evaluateConfidence` on the compression ratio.
When `originalLength = 0` the JS ratio is `NaN`, both comparisons are
false and the result is `0.85`. -/
def summConfidence (summaryLength originalLength : Nat) : ℚ :=
  if originalLength = 0 then 85/100
  else
    let ratio : ℚ := (summaryLength : ℚ) / (originalLength : ℚ)
    if ratio < 1/10 then 6/10
    else if ratio > 1/2 then 7/10
    else 85/100

/-- Input of `SummarizationAgent.process` (`maxLength? || 200`). -/
structure SummInput where
  text : List Char
  maxLength : Option Nat := none
deriving Repr, DecidableEq

/-- `SummarizationAgent.process`. -/
def summProcess (_cfg : Config) (policies : List (AgentPolicy SummInput))
    (input : SummInput) : AgentDecision :=
  let maxLength := match input.maxLength with
    | some n => if n = 0 then 200 else n
    | none => 200
  let summary := summarize input.text maxLength
  let confidence := summConfidence summary.length input.text.length
  let decision : AgentDecision :=
    { action := "summarize"
      confidence := confidence
      requiresHumanApproval := false
      suggestedResponse := some summary
      metadata := [("originalLength", toString input.text.length),
                   ("summaryLength", toString summary.length)] }
  checkPolicies policies input decision

/-! ## IntentDetectionAgent -/

/-- `IntentDetectionAgent.detectIntent`: first matching keyword group
wins (entities are always empty and are not modelled). -/
def detectIntent (text : List Char) : String :=
  let t := toLower text
  if containsSub "cancel".toList t ∨ containsSub "unsubscribe".toList t then
    "cancellation"
  else if containsSub "refund".toList t ∨ containsSub "money back".toList t then
    "refund_request"
  else if containsSub "how".toList t ∨ containsSub "what".toList t ∨
      containsSub "where".toList t then "information_request"
  else if containsSub "bug".toList t ∨ containsSub "broken".toList t ∨
      containsSub "not working".toList t then "bug_report"
  else if containsSub "feature".toList t ∨ containsSub "could you".toList t ∨
      containsSub "it would be nice".toList t then "feature_request"
  else "general_inquiry"

/-- `IntentDetectionAgent.evaluateConfidence`. -/
def intentConfidence (intentType : String) : ℚ :=
  if intentType = "general_inquiry" then 1/2 else 85/100

/-- Input of `IntentDetectionAgent.process`. -/
structure TextInput where
  text : List Char
deriving Repr, DecidableEq

/-- `IntentDetectionAgent.process`; note the hardcoded `0.7` approval
cutoff rather than the configured threshold. -/
def intentProcess (_cfg : Config) (policies : List (AgentPolicy TextInput))
    (input : TextInput) : AgentDecision :=
  let intentType := detectIntent input.text
  let confidence := intentConfidence intentType
  let decision : AgentDecision :=
    { action := "route"
      confidence := confidence
      requiresHumanApproval := decide (confidence < 7/10)
      metadata := [("type", intentType)] }
  checkPolicies policies input decision

/-! ## AutoReplyAgent -/

/-- The fixed in-memory knowledge base loaded by `loadKnowledgeBase`.
Response bodies are abbreviated to their distinguishing phrase; only
presence and non-emptiness matter downstream. -/
def knowledgeBase : List (String × List Char) :=
  [("password_reset", "To reset your password, please visit our password reset page.".toList),
   ("refund_policy", "Our refund policy allows for full refunds within 30 days of purchase.".toList),
   ("technical_support", "For technical issues, please provide error messages and steps to reproduce.".toList)]

/-- `AutoReplyAgent.generateResponse`: knowledge-base hit, else a canned
response per known intent, else no response. -/
def generateResponse (intent : String) : Option (List Char) :=
  match (knowledgeBase.find? (fun p => p.1 = intent)).map (·.2) with
  | some r => some r
  | none =>
    match intent with
    | "information_request" =>
        some "Thank you for your inquiry. Our support team will respond within 24 hours.".toList
    | "bug_report" =>
        some "Thank you for reporting this issue. We have logged it with our development team.".toList
    | "feature_request" =>
        some "Thank you for your feature suggestion! We will consider this for our roadmap.".toList
    | _ => none

/-- Input of `AutoReplyAgent.process` (the context object is only passed
through and is not modelled). -/
structure ReplyInput where
  intent : String
deriving Repr, DecidableEq

/-- `AutoReplyAgent.process`. -/
def replyProcess (cfg : Config) (policies : List (AgentPolicy ReplyInput))
    (input : ReplyInput) : AgentDecision :=
  let response := generateResponse input.intent
  let confidence : ℚ := if response.isSome then 9/10 else 3/10
  let decision : AgentDecision :=
    { action := if response.isSome then "auto_reply" else "escalate"
      confidence := confidence
      requiresHumanApproval :=
        !response.isSome || decide (confidence < cfg.confidenceThreshold)
      suggestedResponse := response
      metadata := [("intent", input.intent)] }
  checkPolicies policies input decision

/-! ## QuDAGOrchestrator -/

/-- The default human-review policy installed by
`QuDAGOrchestrator.initializeAgents`: condition
`decision.confidence < 0.8`, action `require_human_approval`, enabled
when `config.agent.humanReviewRequired`. -/
def humanReviewPolicy (cfg : Config) {α : Type} : AgentPolicy α :=
  { rules := [{ condition := fun _ d => some (decide (d.confidence < 8/10))
                action := "require_human_approval" }]
    priority := 100
    enabled := cfg.humanReviewRequired }

/-- Inbound request shape consumed by the orchestrator. -/
structure Request where
  subject : List Char
  body : List Char
  from_ : List Char := []
deriving Repr, DecidableEq

/-- Result record of `QuDAGOrchestrator.processRequest`. -/
structure ProcessResult where
  decisions : List AgentDecision
  finalAction : String
  requiresApproval : Bool
deriving Repr, DecidableEq

/-- JS `Math.max(...xs)` over a non-empty list. -/
def maxList : List ℚ → ℚ
  | [] => 0
  | x :: xs => xs.foldl max x

/-- JS truthiness of `suggestedResponse`: present and non-empty. -/
def truthyResponse : Option (List Char) → Bool
  | some s => !s.isEmpty
  | none => false

/-- `decision.metadata.type` (the empty string when absent, which is
exactly the JS-falsy case). -/
def metaType (d : AgentDecision) : String :=
  ((d.metadata.find? (fun p => p.1 = "type")).map (·.2)).getD ""

/-- Truthiness of `intentDecision.metadata?.type`. -/
def truthyMetaType (d : AgentDecision) : Bool :=
  metaType d ≠ ""

/-- Phases 1–4 of `QuDAGOrchestrator.processRequest`: the four agents in
sequence, auto-reply only when the intent metadata carries a (truthy)
type and auto-reply is enabled. -/
def collectDecisions (cfg : Config) (input : Request) : List AgentDecision :=
  let triageD := triageProcess cfg [humanReviewPolicy cfg]
    { subject := input.subject, body := input.body, from_ := input.from_ }
  let intentD := intentProcess cfg [humanReviewPolicy cfg]
    { text := input.subject ++ [' '] ++ input.body }
  let summaryD := summProcess cfg [humanReviewPolicy cfg] { text := input.body }
  if truthyMetaType intentD ∧ cfg.autoReplyEnabled then
    [triageD, intentD, summaryD,
     replyProcess cfg [humanReviewPolicy cfg] { intent := metaType intentD }]
  else [triageD, intentD, summaryD]

/-- The final-action computation at the end of `processRequest`:
`escalate` unless no decision requires approval, the highest confidence
exceeds the threshold, and the first decision found with action
`auto_reply` has a truthy `suggestedResponse`. -/
def finalActionOf (threshold : ℚ) (ds : List AgentDecision) : String :=
  if ¬ (ds.any (·.requiresHumanApproval)) ∧ threshold < maxList (ds.map (·.confidence)) then
    match ds.find? (fun d => d.action = "auto_reply") with
    | some d => if truthyResponse d.suggestedResponse then "auto_reply" else "escalate"
    | none => "escalate"
  else "escalate"

/-- `QuDAGOrchestrator.processRequest`. -/
def processRequest (cfg : Config) (input : Request) : ProcessResult :=
  let decisions := collectDecisions cfg input
  { decisions := decisions
    finalAction := finalActionOf cfg.confidenceThreshold decisions
    requiresApproval := decisions.any (·.requiresHumanApproval) }

/-! ## QuDAGSwarmOrchestrator: consensus -/

/-- A decision as consumed by `calculateConsensus`: only the
`confidence` / `overallConfidence` fields matter.  JS numbers are
modelled as rationals. -/
structure ConsensusInput where
  confidence : Option ℚ := none
  overallConfidence : Option ℚ := none
deriving Repr, DecidableEq

/-- JS truthiness of an optional number: present and non-zero. -/
def truthyNum : Option ℚ → Bool
  | some c => c ≠ 0
  | none => false

/-- `d.confidence || d.overallConfidence || 0`. -/
def pickConfidence (d : ConsensusInput) : ℚ :=
  if truthyNum d.confidence then d.confidence.getD 0
  else if truthyNum d.overallConfidence then d.overallConfidence.getD 0
  else 0

/-- `QuDAGSwarmOrchestrator.calculateConsensus`: collect confidences,
drop non-positive ones, and score `mean * (1 - sqrt(variance))` clamped
to `[0, 1]`.  The square root forces the result into `ℝ`. -/
noncomputable def calculateConsensus (ds : List ConsensusInput) : ℝ :=
  if ds = [] then 0
  else
    let confidences := (ds.map pickConfidence).filter (fun c => 0 < c)
    if confidences = [] then 0
    else
      let average : ℚ := confidences.sum / confidences.length
      let variance : ℚ :=
        ((confidences.map (fun c => (c - average) ^ 2)).sum) / confidences.length
      let score : ℝ := (average : ℝ) * (1 - Real.sqrt (variance : ℝ))
      min (max score 0) 1

/-! ## QuDAGSwarmOrchestrator: question graph -/

/-- `QuDAGNode` of the swarm orchestrator; the free-form `result`
payload is a type parameter. -/
structure QuDAGNode (ρ : Type) where
  type : String := "question"
  content : String := ""
  parent : Option String := none
  children : List String := []
  dependencies : List String := []
  confidence : Option ℚ := none
  result : Option ρ := none
  status : String := "pending"
  metadata : List (String × String) := []
deriving DecidableEq

/-- `QuDAGGraph`: node map as an association list in insertion order
(JS `Map`), successor edges, and the materialized execution order. -/
structure QuDAGGraph (ρ : Type) where
  rootId : String
  nodes : List (String × QuDAGNode ρ)
  edges : List (String × List String) := []
  executionOrder : List String := []
deriving DecidableEq

/-- The node ids of the graph, in insertion order. -/
def keys {ρ : Type} (g : QuDAGGraph ρ) : List String := g.nodes.map (·.1)

/-- `graph.nodes.get(id)`. -/
def lookupNode {ρ : Type} (g : QuDAGGraph ρ) (id : String) : Option (QuDAGNode ρ) :=
  (g.nodes.find? (fun p => p.1 = id)).map (·.2)

/-- The recursive `visit` of `updateExecutionOrder`: skip if already
visited, visit dependencies first, then append the node.  The source's
`visited` set receives exactly the elements pushed to `order` (always
together), so visitedness is checked as membership in `order`.  The JS
recursion is unbounded; `fuel` bounds the recursion depth, and
`visitFuel` agrees with the JS function whenever the fuel exceeds the
depth actually needed (which a topological rank certifies for acyclic
graphs — see the termination theorems). -/
def visitFuel {ρ : Type} (g : QuDAGGraph ρ) : Nat → List String → String → List String
  | 0, order, _ => order
  | fuel + 1, order, nodeId =>
    if nodeId ∈ order then order
    else
      match lookupNode g nodeId with
      | none => order
      | some node =>
        (node.dependencies.foldl (fun o d => visitFuel g fuel o d) order) ++ [nodeId]

/-- The body of `updateExecutionOrder` at a given fuel: visit the root,
then every still-unvisited node of the map. -/
def computeOrderFuel {ρ : Type} (g : QuDAGGraph ρ) (fuel : Nat) : List String :=
  (keys g).foldl (fun o id => visitFuel g fuel o id) (visitFuel g fuel [] g.rootId)

/-- `QuDAGSwarmOrchestrator.updateExecutionOrder` (the computed order);
`nodes.length + 1` fuel suffices for every acyclic graph. -/
def updateExecutionOrder {ρ : Type} (g : QuDAGGraph ρ) : List String :=
  computeOrderFuel g (g.nodes.length + 1)

/-- The graph after `updateExecutionOrder` has stored the recomputed
order (the source mutates `graph.executionOrder`). -/
def recomputeOrder {ρ : Type} (g : QuDAGGraph ρ) : QuDAGGraph ρ :=
  { g with executionOrder := updateExecutionOrder g }

/-- A topological rank: strictly decreasing along every dependency edge
between nodes of the graph.  Such a rank exists exactly when the
dependency relation restricted to the (finite) node set is acyclic. -/
def DepRank {ρ : Type} (g : QuDAGGraph ρ) (rank : String → Nat) : Prop :=
  ∀ p ∈ g.nodes, ∀ d ∈ p.2.dependencies, d ∈ keys g → rank d < rank p.1

/-- Acyclicity of the dependency relation, as existence of a
topological rank. -/
def Acyclic {ρ : Type} (g : QuDAGGraph ρ) : Prop := ∃ rank, DepRank g rank

/-! ## QuDAGSwarmOrchestrator: graph execution -/

/-- Lookup in the mutable node map. -/
def lookupAssoc {ρ : Type} (ns : List (String × QuDAGNode ρ)) (id : String) :
    Option (QuDAGNode ρ) :=
  (ns.find? (fun p => p.1 = id)).map (·.2)

/-- In-place update of one entry of the node map (JS mutates the node
object held by the `Map`). -/
def setNode {ρ : Type} (ns : List (String × QuDAGNode ρ)) (id : String)
    (n : QuDAGNode ρ) : List (String × QuDAGNode ρ) :=
  ns.map (fun p => if p.1 = id then (id, n) else p)

/-- One iteration of the `executeGraph` loop.  `proc` is the per-kind
dispatch (`processQuestion`/`processAnalysis`/…, closed over the request
context), returning `none` when it throws; `qr` is
`swarmConfig.quantumResistant && qdagInstance`, and `fp` is
`QuDAG.createFingerprint`, returning `none` when it throws.  A missing
node is skipped; a dispatch failure marks the node `failed` and keeps
the decisions list unchanged; after a successful dispatch the result is
recorded and appended, and a fingerprinting failure then re-marks the
node `failed` (the result stays in the list). -/
def execStep {ρ : Type} (qr : Bool) (proc : QuDAGNode ρ → List ρ → Option ρ)
    (fp : ρ → Option String) (st : List (String × QuDAGNode ρ) × List ρ)
    (nodeId : String) : List (String × QuDAGNode ρ) × List ρ :=
  match lookupAssoc st.1 nodeId with
  | none => st
  | some node =>
    let nodes1 := setNode st.1 nodeId { node with status := "processing" }
    match proc node st.2 with
    | none => (setNode nodes1 nodeId { node with status := "failed" }, st.2)
    | some result =>
      let completed := { node with status := "completed", result := some result }
      let decisions := st.2 ++ [result]
      if qr then
        match fp result with
        | some f =>
            (setNode nodes1 nodeId
              { completed with
                  metadata := mergeMeta completed.metadata [("fingerprint", f)] },
             decisions)
        | none => (setNode nodes1 nodeId { completed with status := "failed" }, decisions)
      else (setNode nodes1 nodeId completed, decisions)

/-- `QuDAGSwarmOrchestrator.executeGraph`: walk the execution order,
returning the final node map and the collected decisions. -/
def executeGraphRun {ρ : Type} (qr : Bool) (proc : QuDAGNode ρ → List ρ → Option ρ)
    (fp : ρ → Option String) (g : QuDAGGraph ρ) :
    List (String × QuDAGNode ρ) × List ρ :=
  g.executionOrder.foldl (execStep qr proc fp) (g.nodes, [])

/-- A materialized order respects the dependency invariant: every
in-graph dependency of a listed node occurs strictly earlier. -/
def Ordered {ρ : Type} (g : QuDAGGraph ρ) (order : List String) : Prop :=
  ∀ n node, n ∈ order → lookupNode g n = some node →
    ∀ d ∈ node.dependencies, d ∈ keys g →
      order.indexOf d < order.indexOf n

/-! ## Concrete fixtures for scenario checks -/

/-- The environment defaults of `config.agent`
(`CONFIDENCE_THRESHOLD=0.8`, auto-reply off, human review on), with
human review switched off to expose the raw agent behaviour. -/
def cfgNoReview : Config :=
  { confidenceThreshold := 8/10, autoReplyEnabled := false, humanReviewRequired := false }

/-- A two-node dependency cycle (`a` depends on `b`, `b` on `a`). -/
def cycNodeA : QuDAGNode String := { dependencies := ["b"] }

/-- Second node of the cyclic fixture. -/
def cycNodeB : QuDAGNode String := { dependencies := ["a"] }

/-- The cyclic graph fixture: the `visit` recursion of
`updateExecutionOrder` never stabilizes on it. -/
def cycGraph : QuDAGGraph String :=
  { rootId := "a", nodes := [("a", cycNodeA), ("b", cycNodeB)] }

/-- Root node of the acyclic witness graph. -/
def witNodeR : QuDAGNode String := {}

/-- Child node of the acyclic witness graph, depending on the root. -/
def witNodeC : QuDAGNode String := { dependencies := ["r"] }

/-- A small acyclic graph: child `c` depends on root `r`. -/
def witGraph : QuDAGGraph String :=
  { rootId := "r", nodes := [("r", witNodeR), ("c", witNodeC)] }

/-- A single-node graph fixture for `executeGraph` runs. -/
def exeNode : QuDAGNode String := {}

/-- Graph with one pending node `x`, execution order `[x]`. -/
def exeGraph : QuDAGGraph String :=
  { rootId := "x", nodes := [("x", exeNode)], executionOrder := ["x"] }

/-- Two-node graph (`x` then `y`) for node-local failure runs. -/
def exeGraph2 : QuDAGGraph String :=
  { rootId := "x", nodes := [("x", exeNode), ("y", exeNode)],
    executionOrder := ["x", "y"] }

/-! # Theorems -/

/-! ## Policy engine lemmas -/

theorem applyAction_action (a : String) (d : AgentDecision) (p : PolicyParams) :
    (applyAction a d p).action = d.action := by
  unfold applyAction; split <;> rfl

theorem applyAction_suggested (a : String) (d : AgentDecision) (p : PolicyParams) :
    (applyAction a d p).suggestedResponse = d.suggestedResponse := by
  unfold applyAction; split <;> rfl

theorem runRules_action {α : Type} (input : α) (rules : List (PolicyRule α))
    (d : AgentDecision) : (runRules input rules d).action = d.action := by
  induction rules generalizing d with
  | nil => rfl
  | cons r rest ih =>
    simp only [runRules]
    rw [ih]
    by_cases h : evaluateCondition r.condition input d
    · simp only [if_pos h, applyAction_action]
    · simp only [if_neg h]

theorem runRules_suggested {α : Type} (input : α) (rules : List (PolicyRule α))
    (d : AgentDecision) :
    (runRules input rules d).suggestedResponse = d.suggestedResponse := by
  induction rules generalizing d with
  | nil => rfl
  | cons r rest ih =>
    simp only [runRules]
    rw [ih]
    by_cases h : evaluateCondition r.condition input d
    · simp only [if_pos h, applyAction_suggested]
    · simp only [if_neg h]

theorem checkPolicies_action {α : Type} (ps : List (AgentPolicy α)) (i : α)
    (d : AgentDecision) : (checkPolicies ps i d).action = d.action := by
  unfold checkPolicies
  generalize ps.filter (·.enabled) = l
  induction l generalizing d with
  | nil => rfl
  | cons p rest ih => simp only [List.foldl_cons]; rw [ih, runRules_action]

theorem checkPolicies_suggested {α : Type} (ps : List (AgentPolicy α)) (i : α)
    (d : AgentDecision) :
    (checkPolicies ps i d).suggestedResponse = d.suggestedResponse := by
  unfold checkPolicies
  generalize ps.filter (·.enabled) = l
  induction l generalizing d with
  | nil => rfl
  | cons p rest ih => simp only [List.foldl_cons]; rw [ih, runRules_suggested]

theorem runRules_skip_throw {α : Type} (input : α) (r : PolicyRule α)
    (hthrow : ∀ d, r.condition input d = none)
    (pre post : List (PolicyRule α)) (d : AgentDecision) :
    runRules input (pre ++ r :: post) d = runRules input (pre ++ post) d := by
  induction pre generalizing d with
  | nil =>
    simp only [List.nil_append, runRules, evaluateCondition, hthrow, Option.getD_none]
    simp
  | cons q qre ih =>
    simp only [List.cons_append, runRules]
    exact ih _

/-- C8: the policy pass never raises.  A rule whose condition evaluation
throws (models: `condition input · = none`) is treated as not matching —
deleting it from its policy leaves `checkPolicies` unchanged, so the
pass returns a decision instead of propagating the error; and a rule
whose action label is unknown leaves the decision unchanged. -/
theorem policy_pass_never_raises :
    (∀ (α : Type) (input : α) (P₁ P₂ : List (AgentPolicy α))
        (pre post : List (PolicyRule α)) (r : PolicyRule α) (prio : Int) (en : Bool)
        (d : AgentDecision),
        (∀ d', r.condition input d' = none) →
        checkPolicies (P₁ ++ (⟨pre ++ r :: post, prio, en⟩ : AgentPolicy α) :: P₂) input d
          = checkPolicies (P₁ ++ (⟨pre ++ post, prio, en⟩ : AgentPolicy α) :: P₂) input d)
    ∧ (∀ (a : String) (d : AgentDecision) (params : PolicyParams),
        a ≠ "require_human_approval" → a ≠ "set_confidence" → a ≠ "add_metadata" →
        applyAction a d params = d) := by
  constructor
  · intro α input P₁ P₂ pre post r prio en d hthrow
    unfold checkPolicies
    rw [List.filter_append, List.filter_append, List.filter_cons, List.filter_cons]
    cases en with
    | false => simp
    | true =>
      rw [if_pos rfl, if_pos rfl]
      rw [List.foldl_append, List.foldl_append, List.foldl_cons, List.foldl_cons]
      exact congrArg
        (fun y => List.foldl (fun d p => runRules input p.rules d) y
          (List.filter (fun x => x.enabled) P₂))
        (runRules_skip_throw input r hthrow pre post
          (List.foldl (fun d p => runRules input p.rules d) d
            (List.filter (fun x => x.enabled) P₁)))
  · intro a d params h1 h2 h3
    unfold applyAction
    split <;> simp_all

/-- Witness for C8 at a concrete throwing rule and a concrete unknown
action. -/
theorem policy_pass_never_raises_witness :
    checkPolicies
        [({ rules := [{ condition := fun _ _ => none, action := "set_confidence" }],
            priority := 0, enabled := true } : AgentPolicy Unit)] ()
        { action := "a", confidence := 0, requiresHumanApproval := false }
      = checkPolicies
        [({ rules := [], priority := 0, enabled := true } : AgentPolicy Unit)] ()
        { action := "a", confidence := 0, requiresHumanApproval := false }
    ∧ applyAction "frobnicate"
        { action := "a", confidence := 0, requiresHumanApproval := false } {}
      = { action := "a", confidence := 0, requiresHumanApproval := false } :=
  ⟨policy_pass_never_raises.1 Unit () [] [] [] []
      { condition := fun _ _ => none, action := "set_confidence" } 0 true _ (fun _ => rfl),
   policy_pass_never_raises.2 "frobnicate" _ _ (by decide) (by decide) (by decide)⟩

/-! ## C3: approval thresholds per agent -/

/-- C3 (amended): with no policy interference, `TriageAgent` and
`AutoReplyAgent` require human approval exactly on
`confidence < confidenceThreshold` (for auto-reply, also whenever no
response was found); `IntentDetectionAgent` compares against the
hardcoded `0.7` instead of the configured threshold, and
`SummarizationAgent` never requires approval. -/
theorem agent_approval_thresholds (cfg : Config) (ti : TriageInput) (txt : TextInput)
    (si : SummInput) (ri : ReplyInput) :
    ((triageProcess cfg [] ti).requiresHumanApproval
        = decide ((triageProcess cfg [] ti).confidence < cfg.confidenceThreshold))
    ∧ ((replyProcess cfg [] ri).requiresHumanApproval
        = (!(generateResponse ri.intent).isSome
            || decide ((replyProcess cfg [] ri).confidence < cfg.confidenceThreshold)))
    ∧ ((intentProcess cfg [] txt).requiresHumanApproval
        = decide ((intentProcess cfg [] txt).confidence < 7/10))
    ∧ (summProcess cfg [] si).requiresHumanApproval = false :=
  ⟨rfl, rfl, rfl, rfl⟩

/-- C3 counterexample: at the default threshold `0.8` with the review
policy disabled and no policies attached, the summarization decision for
`"Hi there friend."` has confidence `0.7 < 0.8` yet
`requiresHumanApproval = false`. -/
theorem summ_below_threshold_without_approval :
    (summProcess cfgNoReview [] { text := "Hi there friend.".toList }).confidence
        < cfgNoReview.confidenceThreshold
    ∧ (summProcess cfgNoReview [] { text := "Hi there friend.".toList }).requiresHumanApproval
        = false := by
  constructor
  · have hsum : summarize "Hi there friend.".toList 200 = "Hi there friend.".toList := by
      decide
    have hlen : ("Hi there friend.".toList).length = 16 := by decide
    have hconf : (summProcess cfgNoReview [] { text := "Hi there friend.".toList }).confidence
        = summConfidence 16 16 := by
      show (summConfidence (summarize "Hi there friend.".toList 200).length
          ("Hi there friend.".toList).length) = summConfidence 16 16
      rw [hsum, hlen]
    rw [hconf]
    show summConfidence 16 16 < 8/10
    norm_num [summConfidence]
  · rfl

/-! ## C7: triage confidence formula and scenario -/

theorem ite_general_ne_nil (l : List String) : (if l = [] then ["general"] else l) ≠ [] := by
  split
  · exact List.cons_ne_nil _ _
  · assumption

theorem categorize_ne_nil (subject body : List Char) : categorize subject body ≠ [] := by
  simp only [categorize]
  exact ite_general_ne_nil _

/-- C7: the triage confidence is `0.5`, plus `0.2` when the primary
category is not `general`, plus `0.2` when the priority is not `normal`,
plus `0.1` when exactly one category matched, capped at `1`; and on the
scenario subject "URGENT: Production down" / body "Critical issue, need
help ASAP" the categories include `urgent`, the priority is `high` and
the confidence exceeds `0.7`. -/
theorem triage_confidence_formula :
    (∀ subject body : List Char,
      triageConfidence (categorize subject body) (prioritize (categorize subject body))
        = min ((1/2 : ℚ)
            + (if (categorize subject body).headD "" ≠ "general" then 1/5 else 0)
            + (if prioritize (categorize subject body) ≠ "normal" then 1/5 else 0)
            + (if (categorize subject body).length = 1 then 1/10 else 0)) 1)
    ∧ "urgent" ∈ categorize "URGENT: Production down".toList "Critical issue, need help ASAP".toList
    ∧ prioritize (categorize "URGENT: Production down".toList
        "Critical issue, need help ASAP".toList) = "high"
    ∧ triageConfidence
        (categorize "URGENT: Production down".toList "Critical issue, need help ASAP".toList)
        (prioritize (categorize "URGENT: Production down".toList
          "Critical issue, need help ASAP".toList))
        > 7/10 := by
  refine ⟨?_, by decide, by decide, ?_⟩
  · intro subject body
    have hne := categorize_ne_nil subject body
    have hlen : (categorize subject body).length > 0 := List.length_pos.2 hne
    by_cases h1 : (categorize subject body).head?.getD "" = "general" <;>
      by_cases h2 : prioritize (categorize subject body) = "normal" <;>
      by_cases h3 : (categorize subject body).length = 1 <;>
      (simp [triageConfidence, h1, h2, h3, hlen]; try norm_num)
  · have hc : categorize "URGENT: Production down".toList
        "Critical issue, need help ASAP".toList = ["urgent", "question"] := by decide
    rw [hc]
    have hp : prioritize ["urgent", "question"] = "high" := by decide
    rw [hp]
    norm_num [triageConfidence]
    rw [if_neg (show ¬("high" = "normal") by decide),
      if_neg (show ¬("urgent" = "general") by decide)]
    norm_num

/-! ## C6: summarization truncation law -/

/-- C6 (amended): for every text, whenever `maxLength ≥ 3` the summary
has length at most `maxLength`, and whenever the joined top-3 sentences
exceed `maxLength` the output ends with `...`.  (For `maxLength < 3` the
truncated output is the three-character `...`, which exceeds the
budget — see the counterexample.) -/
theorem summarize_truncation (text : List Char) (maxLength : Nat) :
    (3 ≤ maxLength → (summarize text maxLength).length ≤ maxLength)
    ∧ ((joinedTop text).length > maxLength →
        "...".toList <:+ summarize text maxLength) := by
  constructor
  · intro h3
    unfold summarize
    by_cases h : (joinedTop text).length > maxLength
    · simp only [if_pos h, List.length_append, List.length_take]
      have hdots : ("...".toList).length = 3 := rfl
      omega
    · simp only [if_neg h]
      omega
  · intro h
    unfold summarize
    simp only [if_pos h]
    exact List.suffix_append _ _

/-- C6 counterexample: at `maxLength = 2` the summary of
`"Hello there friend."` is the three-character `"..."`, longer than the
budget. -/
theorem summarize_exceeds_maxLength :
    ¬ ((summarize "Hello there friend.".toList 2).length ≤ 2) := by decide

/-- Witness for C6 on a concrete long sentence at `maxLength = 10`. -/
theorem summarize_truncation_witness :
    (summarize "Hello there my friend this is a long sentence.".toList 10).length ≤ 10
    ∧ "...".toList <:+ summarize "Hello there my friend this is a long sentence.".toList 10 :=
  ⟨(summarize_truncation "Hello there my friend this is a long sentence.".toList 10).1
      (by decide),
   (summarize_truncation "Hello there my friend this is a long sentence.".toList 10).2
      (by decide)⟩

/-! ## C2: consensus scoring -/

/-- C2: `calculateConsensus` is 0 when no collected confidence is
positive (in particular on the empty list), and otherwise equals
`mean * (1 - sqrt(population variance))` over the positive confidences,
clamped to `[0, 1]`; consensus of a single decision with confidence
`c ∈ (0, 1]` is exactly `c`. -/
theorem calculateConsensus_spec :
    (∀ ds : List ConsensusInput,
        ((ds.map pickConfidence).filter (fun c => 0 < c)) = [] → calculateConsensus ds = 0)
    ∧ (∀ (ds : List ConsensusInput) (l : List ℚ),
        l = (ds.map pickConfidence).filter (fun c => 0 < c) → l ≠ [] →
        calculateConsensus ds =
          min (max (((l.sum / l.length : ℚ) : ℝ)
              * (1 - Real.sqrt ((((l.map (fun c => (c - l.sum / l.length) ^ 2)).sum
                  / l.length : ℚ) : ℝ)))) 0) 1)
    ∧ calculateConsensus ([] : List ConsensusInput) = 0
    ∧ (∀ c : ℚ, 0 < c → c ≤ 1 →
        calculateConsensus [{ confidence := some c }] = (c : ℝ)) := by
  have hbody : ∀ (ds : List ConsensusInput) (l : List ℚ),
      l = (ds.map pickConfidence).filter (fun c => 0 < c) → l ≠ [] →
      calculateConsensus ds =
        min (max (((l.sum / l.length : ℚ) : ℝ)
            * (1 - Real.sqrt ((((l.map (fun c => (c - l.sum / l.length) ^ 2)).sum
                / l.length : ℚ) : ℝ)))) 0) 1 := by
    intro ds l hl hne
    subst hl
    have hds : ds ≠ [] := by
      intro h
      subst h
      simp at hne
    simp only [calculateConsensus, if_neg hds, if_neg hne]
  refine ⟨?_, hbody, by simp [calculateConsensus], ?_⟩
  · intro ds h
    by_cases hds : ds = []
    · simp [calculateConsensus, hds]
    · simp only [calculateConsensus, if_neg hds, h, if_pos]
  · intro c h0 h1
    have hpick : pickConfidence { confidence := some c } = c := by
      simp [pickConfidence, truthyNum, ne_of_gt h0]
    have hfil : (([{ confidence := some c }] : List ConsensusInput).map
        pickConfidence).filter (fun c => 0 < c) = [c] := by
      simp [hpick, List.filter, h0]
    rw [hbody _ [c] hfil.symm (List.cons_ne_nil _ _)]
    have h2 : (([c] : List ℚ).sum / (([c] : List ℚ).length : ℚ)) = c := by simp
    rw [h2]
    have h3 : ((([c] : List ℚ).map (fun x => (x - c) ^ 2)).sum
        / (([c] : List ℚ).length : ℚ)) = 0 := by simp
    rw [h3]
    have hcge : (0:ℝ) ≤ (c:ℝ) := by exact_mod_cast le_of_lt h0
    have hcle : ((c:ℝ)) ≤ 1 := by exact_mod_cast h1
    rw [Rat.cast_zero, Real.sqrt_zero, sub_zero, mul_one, max_eq_left hcge,
      min_eq_left hcle]

/-- Witness for C2: consensus of the empty list, and of a single
decision with confidence `1/2`. -/
theorem calculateConsensus_spec_witness :
    calculateConsensus ([] : List ConsensusInput) = 0
    ∧ calculateConsensus [{ confidence := some ((1:ℚ)/2) }] = (((1:ℚ)/2 : ℚ) : ℝ) :=
  ⟨calculateConsensus_spec.2.2.1,
   calculateConsensus_spec.2.2.2 (1/2) (by norm_num) (by norm_num)⟩

/-! ## C1: orchestrator final action -/

theorem triageProcess_action (cfg : Config) (ps : List (AgentPolicy TriageInput))
    (ti : TriageInput) : (triageProcess cfg ps ti).action = "triage" := by
  simp [triageProcess, checkPolicies_action]

theorem intentProcess_action (cfg : Config) (ps : List (AgentPolicy TextInput))
    (txt : TextInput) : (intentProcess cfg ps txt).action = "route" := by
  simp [intentProcess, checkPolicies_action]

theorem summProcess_action (cfg : Config) (ps : List (AgentPolicy SummInput))
    (si : SummInput) : (summProcess cfg ps si).action = "summarize" := by
  simp [summProcess, checkPolicies_action]

theorem finalActionOf_spec (θ : ℚ) (ds : List AgentDecision)
    (huniq : ∀ d₁ ∈ ds, d₁.action = "auto_reply" →
      ∀ d₂ ∈ ds, d₂.action = "auto_reply" → d₁ = d₂) :
    finalActionOf θ ds =
      if (∀ d ∈ ds, d.requiresHumanApproval = false)
          ∧ θ < maxList (ds.map (·.confidence))
          ∧ (∃ d ∈ ds, d.action = "auto_reply" ∧ truthyResponse d.suggestedResponse = true)
      then "auto_reply" else "escalate" := by
  unfold finalActionOf
  have hany : (ds.any (·.requiresHumanApproval) = true)
      ↔ ¬(∀ d ∈ ds, d.requiresHumanApproval = false) := by
    rw [List.any_eq_true]
    push_neg
    constructor
    · rintro ⟨x, hx, hpx⟩
      exact ⟨x, hx, by simp [hpx]⟩
    · rintro ⟨x, hx, hpx⟩
      exact ⟨x, hx, by simpa using hpx⟩
  by_cases hA : ∀ d ∈ ds, d.requiresHumanApproval = false
  · by_cases hB : θ < maxList (ds.map (·.confidence))
    · rw [if_pos ⟨by rw [hany]; exact not_not_intro hA, hB⟩]
      cases hfind : ds.find? (fun d => d.action = "auto_reply") with
      | none =>
        have hno : ∀ x ∈ ds, ¬(x.action = "auto_reply") := by
          have h := List.find?_eq_none.1 hfind
          intro x hx
          simpa using h x hx
        simp only [hfind]
        rw [if_neg]
        rintro ⟨-, -, d, hd, hact, -⟩
        exact hno d hd hact
      | some d₀ =>
        have hd₀ : d₀ ∈ ds := List.mem_of_find?_eq_some hfind
        have hact : d₀.action = "auto_reply" := by
          simpa using List.find?_some hfind
        simp only [hfind]
        by_cases htr : truthyResponse d₀.suggestedResponse = true
        · rw [if_pos htr, if_pos ⟨hA, hB, ⟨d₀, hd₀, hact, htr⟩⟩]
        · rw [if_neg htr, if_neg]
          rintro ⟨-, -, d, hd, hactd, htrd⟩
          have : d = d₀ := huniq d hd hactd d₀ hd₀ hact
          subst this
          exact htr htrd
    · rw [if_neg (fun h => hB h.2), if_neg (fun h => hB h.2.1)]
  · rw [if_neg (fun h => h.1 (hany.mpr hA)), if_neg (fun h => hA h.1)]

theorem collect_uniq (cfg : Config) (input : Request) :
    ∀ d₁ ∈ collectDecisions cfg input, d₁.action = "auto_reply" →
      ∀ d₂ ∈ collectDecisions cfg input, d₂.action = "auto_reply" → d₁ = d₂ := by
  have ht := triageProcess_action cfg [humanReviewPolicy cfg]
    { subject := input.subject, body := input.body, from_ := input.from_ }
  have hi := intentProcess_action cfg [humanReviewPolicy cfg]
    { text := input.subject ++ [' '] ++ input.body }
  have hs := summProcess_action cfg [humanReviewPolicy cfg] { text := input.body }
  intro d₁ h₁ ha₁ d₂ h₂ ha₂
  simp only [collectDecisions] at h₁ h₂
  by_cases hC : truthyMetaType (intentProcess cfg [humanReviewPolicy cfg]
      { text := input.subject ++ [' '] ++ input.body }) = true
      ∧ cfg.autoReplyEnabled = true
  · rw [if_pos hC] at h₁ h₂
    simp only [List.mem_cons, List.not_mem_nil, or_false] at h₁ h₂
    rcases h₁ with rfl | rfl | rfl | rfl <;> rcases h₂ with rfl | rfl | rfl | rfl <;>
      simp_all
  · rw [if_neg hC] at h₁ h₂
    simp only [List.mem_cons, List.not_mem_nil, or_false] at h₁ h₂
    rcases h₁ with rfl | rfl | rfl <;> rcases h₂ with rfl | rfl | rfl <;> simp_all

/-- C1: `processRequest` returns final action `escalate` unless no
collected decision requires human approval, the maximum collected
confidence strictly exceeds the configured threshold, and some collected
decision has action `auto_reply` with a truthy (non-empty) suggested
response — in which case it returns `auto_reply`.  (At most one
collected decision carries action `auto_reply`, so the source's
`find?`-based check coincides with the existential.) -/
theorem processRequest_finalAction (cfg : Config) (input : Request) :
    (processRequest cfg input).finalAction =
      if (∀ d ∈ (processRequest cfg input).decisions, d.requiresHumanApproval = false)
          ∧ cfg.confidenceThreshold
              < maxList ((processRequest cfg input).decisions.map (·.confidence))
          ∧ (∃ d ∈ (processRequest cfg input).decisions,
              d.action = "auto_reply" ∧ truthyResponse d.suggestedResponse = true)
      then "auto_reply" else "escalate" := by
  have hP : (processRequest cfg input).finalAction
      = finalActionOf cfg.confidenceThreshold (collectDecisions cfg input) := rfl
  have hD : (processRequest cfg input).decisions = collectDecisions cfg input := rfl
  rw [hP, hD]
  exact finalActionOf_spec _ _ (collect_uniq cfg input)

/-! ## Graph lemmas: lookups -/

theorem lookupNode_mem {ρ : Type} {g : QuDAGGraph ρ} {id : String} {node : QuDAGNode ρ}
    (h : lookupNode g id = some node) : (id, node) ∈ g.nodes := by
  unfold lookupNode at h
  cases hf : g.nodes.find? (fun p => p.1 = id) with
  | none => rw [hf] at h; simp at h
  | some pr =>
    rw [hf] at h
    simp only [Option.map_some'] at h
    have hp1 : pr.1 = id := by simpa using List.find?_some hf
    have hm := List.mem_of_find?_eq_some hf
    have hpr : pr = (id, node) := by
      cases pr
      simp_all
    rwa [hpr] at hm

theorem mem_keys_of_lookup {ρ : Type} {g : QuDAGGraph ρ} {id : String} {node : QuDAGNode ρ}
    (h : lookupNode g id = some node) : id ∈ keys g :=
  List.mem_map_of_mem (·.1) (lookupNode_mem h)

theorem lookupNode_none_iff {ρ : Type} {g : QuDAGGraph ρ} {id : String} :
    lookupNode g id = none ↔ id ∉ keys g := by
  unfold lookupNode keys
  rw [Option.map_eq_none', List.find?_eq_none]
  constructor
  · intro h hmem
    obtain ⟨p, hp, hp1⟩ := List.mem_map.1 hmem
    exact absurd (by simpa using hp1) (by simpa using h p hp)
  · intro h p hp
    intro hdec
    exact h (List.mem_map.2 ⟨p, hp, by simpa using hdec⟩)

theorem visitFuel_not_key {ρ : Type} (g : QuDAGGraph ρ) {id : String} (h : id ∉ keys g) :
    ∀ (fuel : Nat) (order : List String), visitFuel g fuel order id = order := by
  intro fuel order
  cases fuel with
  | zero => rfl
  | succ f =>
    by_cases ho : id ∈ order
    · simp [visitFuel, ho]
    · simp [visitFuel, ho, lookupNode_none_iff.2 h]

theorem ordered_nil {ρ : Type} (g : QuDAGGraph ρ) : Ordered g [] := by
  intro n node hn
  exact absurd hn (List.not_mem_nil n)

/-! ## Graph lemmas: the visit recursion -/

theorem foldVisit_spec {ρ : Type} (g : QuDAGGraph ρ) (rank : String → Nat) (fuel B : Nat)
    (ds : List String)
    (H : ∀ d ∈ ds, d ∈ keys g →
      rank d < B ∧
      ∀ order : List String,
        (∃ ext, visitFuel g fuel order d = order ++ ext ∧
            ∀ x ∈ ext, x ∈ keys g ∧ rank x < B) ∧
        d ∈ visitFuel g fuel order d ∧
        (order.Nodup → (visitFuel g fuel order d).Nodup) ∧
        (Ordered g order → Ordered g (visitFuel g fuel order d))) :
    ∀ order : List String,
      (∃ ext, ds.foldl (fun o x => visitFuel g fuel o x) order = order ++ ext ∧
          ∀ x ∈ ext, x ∈ keys g ∧ rank x < B) ∧
      (∀ d ∈ ds, d ∈ keys g → d ∈ ds.foldl (fun o x => visitFuel g fuel o x) order) ∧
      (order.Nodup → (ds.foldl (fun o x => visitFuel g fuel o x) order).Nodup) ∧
      (Ordered g order → Ordered g (ds.foldl (fun o x => visitFuel g fuel o x) order)) := by
  revert H
  induction ds with
  | nil =>
    intro H order
    refine ⟨⟨[], (List.append_nil order).symm, by simp⟩, by simp, fun h => h, fun h => h⟩
  | cons d ds ih =>
    intro H order
    simp only [List.foldl_cons]
    have H' : ∀ x ∈ ds, x ∈ keys g →
        rank x < B ∧
        ∀ order : List String,
          (∃ ext, visitFuel g fuel order x = order ++ ext ∧
              ∀ y ∈ ext, y ∈ keys g ∧ rank y < B) ∧
          x ∈ visitFuel g fuel order x ∧
          (order.Nodup → (visitFuel g fuel order x).Nodup) ∧
          (Ordered g order → Ordered g (visitFuel g fuel order x)) :=
      fun x hx hxk => H x (List.mem_cons_of_mem d hx) hxk
    by_cases hdk : d ∈ keys g
    · obtain ⟨hrd, hall⟩ := H d (List.mem_cons_self d ds) hdk
      obtain ⟨⟨ext₀, heq₀, hb₀⟩, hmem₀, hnd₀, hord₀⟩ := hall order
      obtain ⟨⟨ext₁, heq₁, hb₁⟩, hmem₁, hnd₁, hord₁⟩ := ih H' (visitFuel g fuel order d)
      refine ⟨⟨ext₀ ++ ext₁, ?_, ?_⟩, ?_, ?_, ?_⟩
      · rw [heq₁, heq₀, List.append_assoc]
      · intro x hx
        rcases List.mem_append.1 hx with h | h
        · exact hb₀ x h
        · exact hb₁ x h
      · intro e he hek
        rcases List.mem_cons.1 he with rfl | he'
        · rw [heq₁]
          exact List.mem_append_left _ hmem₀
        · exact hmem₁ e he' hek
      · exact fun h => hnd₁ (hnd₀ h)
      · exact fun h => hord₁ (hord₀ h)
    · rw [visitFuel_not_key g hdk fuel order]
      obtain ⟨he, hm, hn, ho⟩ := ih H' order
      refine ⟨he, ?_, hn, ho⟩
      intro e he' hek
      rcases List.mem_cons.1 he' with rfl | he''
      · exact absurd hek hdk
      · exact hm e he'' hek

theorem visit_spec {ρ : Type} (g : QuDAGGraph ρ) (rank : String → Nat)
    (hr : DepRank g rank) :
    ∀ (k : Nat) (id : String), rank id < k → ∀ (fuel : Nat), rank id < fuel →
    ∀ order : List String,
      (∃ ext, visitFuel g fuel order id = order ++ ext ∧
          ∀ x ∈ ext, x ∈ keys g ∧ rank x ≤ rank id) ∧
      (id ∈ keys g → id ∈ visitFuel g fuel order id) ∧
      (order.Nodup → (visitFuel g fuel order id).Nodup) ∧
      (Ordered g order → Ordered g (visitFuel g fuel order id)) := by
  intro k
  induction k with
  | zero => intro id h; exact absurd h (Nat.not_lt_zero _)
  | succ k ih =>
    intro id hk fuel hfuel order
    cases fuel with
    | zero => exact absurd hfuel (Nat.not_lt_zero _)
    | succ f =>
      by_cases ho : id ∈ order
      · have hres : visitFuel g (f + 1) order id = order := by simp [visitFuel, ho]
        rw [hres]
        exact ⟨⟨[], (List.append_nil order).symm, by simp⟩, fun _ => ho,
          fun h => h, fun h => h⟩
      · cases hl : lookupNode g id with
        | none =>
          have hres : visitFuel g (f + 1) order id = order := by simp [visitFuel, ho, hl]
          rw [hres]
          refine ⟨⟨[], (List.append_nil order).symm, by simp⟩, ?_, fun h => h, fun h => h⟩
          intro hk'
          exact absurd hk' (lookupNode_none_iff.1 hl)
        | some node =>
          have hres : visitFuel g (f + 1) order id
              = (node.dependencies.foldl (fun o x => visitFuel g f o x) order) ++ [id] := by
            simp [visitFuel, ho, hl]
          have hmem : (id, node) ∈ g.nodes := lookupNode_mem hl
          have hidk : id ∈ keys g := mem_keys_of_lookup hl
          have H : ∀ d ∈ node.dependencies, d ∈ keys g →
              rank d < rank id ∧
              ∀ order' : List String,
                (∃ ext, visitFuel g f order' d = order' ++ ext ∧
                    ∀ x ∈ ext, x ∈ keys g ∧ rank x < rank id) ∧
                d ∈ visitFuel g f order' d ∧
                (order'.Nodup → (visitFuel g f order' d).Nodup) ∧
                (Ordered g order' → Ordered g (visitFuel g f order' d)) := by
            intro d hd hdk
            have hrd : rank d < rank id := hr (id, node) hmem d hd hdk
            refine ⟨hrd, ?_⟩
            intro order'
            have hk' : rank d < k := lt_of_lt_of_le hrd (Nat.lt_succ_iff.1 hk)
            have hf' : rank d < f := lt_of_lt_of_le hrd (Nat.lt_succ_iff.1 hfuel)
            obtain ⟨⟨ext, heq, hb⟩, hm, hn, hor⟩ := ih d hk' f hf' order'
            exact ⟨⟨ext, heq, fun x hx => ⟨(hb x hx).1, lt_of_le_of_lt (hb x hx).2 hrd⟩⟩,
              hm hdk, hn, hor⟩
          obtain ⟨⟨ext₀, heq₀, hb₀⟩, hdmem, hnd, hord⟩ :=
            foldVisit_spec g rank f (rank id) node.dependencies H order
          rw [hres]
          have hidext : id ∉ ext₀ := fun hx => absurd (hb₀ id hx).2 (lt_irrefl _)
          have hidfold : id ∉ node.dependencies.foldl (fun o x => visitFuel g f o x) order := by
            rw [heq₀]
            intro hmem'
            rcases List.mem_append.1 hmem' with h | h
            · exact ho h
            · exact hidext h
          refine ⟨⟨ext₀ ++ [id], ?_, ?_⟩, ?_, ?_, ?_⟩
          · rw [heq₀, List.append_assoc]
          · intro x hx
            rcases List.mem_append.1 hx with h | h
            · exact ⟨(hb₀ x h).1, le_of_lt (hb₀ x h).2⟩
            · have hxid : x = id := by simpa using h
              subst hxid
              exact ⟨hidk, le_refl _⟩
          · intro _
            exact List.mem_append_right _ (by simp)
          · intro hnd₀
            rw [List.nodup_append]
            refine ⟨hnd hnd₀, List.nodup_singleton _, ?_⟩
            intro a ha hb'
            have haid : a = id := by simpa using hb'
            subst haid
            exact hidfold ha
          · intro hord₀
            have h2 := hord hord₀
            intro n node' hn hln e he hek
            rcases List.mem_append.1 hn with hnf | hnid
            · have hlt := h2 n node' hnf hln e he hek
              have hdf : e ∈ node.dependencies.foldl (fun o x => visitFuel g f o x) order := by
                by_contra hdf
                have h3 : (node.dependencies.foldl (fun o x => visitFuel g f o x) order).indexOf n
                    ≤ (node.dependencies.foldl (fun o x => visitFuel g f o x) order).length :=
                  List.indexOf_le_length
                rw [List.indexOf_of_not_mem hdf] at hlt
                omega
              rw [List.indexOf_append_of_mem hdf, List.indexOf_append_of_mem hnf]
              exact hlt
            · have hnide : n = id := by simpa using hnid
              subst hnide
              have hnode' : node = node' := Option.some.inj (hl.symm.trans hln)
              subst hnode'
              have hdfold : e ∈ node.dependencies.foldl (fun o x => visitFuel g f o x) order :=
                hdmem e he hek
              rw [List.indexOf_append_of_mem hdfold,
                List.indexOf_append_of_not_mem hidfold]
              have h4 : (node.dependencies.foldl (fun o x => visitFuel g f o x) order).indexOf e
                  < (node.dependencies.foldl (fun o x => visitFuel g f o x) order).length :=
                List.indexOf_lt_length.2 hdfold
              simp only [List.indexOf_cons_self]
              omega

/-! ## Graph lemmas: the full recomputation -/

theorem computeOrderFuel_spec {ρ : Type} (g : QuDAGGraph ρ) (rank : String → Nat)
    (hr : DepRank g rank) (fuel : Nat) (hfuel : ∀ id, rank id < fuel) :
    (computeOrderFuel g fuel).Nodup ∧ Ordered g (computeOrderFuel g fuel) ∧
    (∀ id, id ∈ computeOrderFuel g fuel ↔ id ∈ keys g) := by
  unfold computeOrderFuel
  obtain ⟨⟨ext₀, heq₀, hb₀⟩, hrmem, hnd₀, hord₀⟩ :=
    visit_spec g rank hr (rank g.rootId + 1) g.rootId (Nat.lt_succ_self _) fuel (hfuel _) []
  have H : ∀ d ∈ keys g, d ∈ keys g →
      rank d < fuel ∧
      ∀ order' : List String,
        (∃ ext, visitFuel g fuel order' d = order' ++ ext ∧
            ∀ x ∈ ext, x ∈ keys g ∧ rank x < fuel) ∧
        d ∈ visitFuel g fuel order' d ∧
        (order'.Nodup → (visitFuel g fuel order' d).Nodup) ∧
        (Ordered g order' → Ordered g (visitFuel g fuel order' d)) := by
    intro d _ hdk
    refine ⟨hfuel d, ?_⟩
    intro order'
    obtain ⟨⟨ext, heq, hb⟩, hm, hn, hor⟩ :=
      visit_spec g rank hr (rank d + 1) d (Nat.lt_succ_self _) fuel (hfuel d) order'
    exact ⟨⟨ext, heq, fun x hx => ⟨(hb x hx).1, lt_of_le_of_lt (hb x hx).2 (hfuel d)⟩⟩,
      hm hdk, hn, hor⟩
  obtain ⟨⟨ext₁, heq₁, hb₁⟩, hmem₁, hnd₁, hord₁⟩ :=
    foldVisit_spec g rank fuel fuel (keys g) H (visitFuel g fuel [] g.rootId)
  refine ⟨hnd₁ (hnd₀ List.nodup_nil), hord₁ (hord₀ (ordered_nil g)), ?_⟩
  intro id
  constructor
  · intro hmem
    rw [heq₁, heq₀] at hmem
    rcases List.mem_append.1 hmem with h | h
    · rcases List.mem_append.1 h with h' | h'
      · exact absurd h' (List.not_mem_nil id)
      · exact (hb₀ id h').1
    · exact (hb₁ id h).1
  · intro hk'
    exact hmem₁ id hk' hk'

theorem exists_bounded_rank {ρ : Type} (g : QuDAGGraph ρ) (h : Acyclic g) :
    ∃ rank, DepRank g rank ∧ ∀ id, rank id < g.nodes.length + 1 := by
  obtain ⟨r, hr⟩ := h
  refine ⟨fun id => ((keys g).toFinset.filter (fun kk => r kk < r id)).card, ?_, ?_⟩
  · intro p hp d hd hdk
    apply Finset.card_lt_card
    rw [Finset.ssubset_def]
    constructor
    · intro x hx
      rw [Finset.mem_filter] at hx ⊢
      exact ⟨hx.1, lt_trans hx.2 (hr p hp d hd hdk)⟩
    · intro hsub
      have hd_mem : d ∈ (keys g).toFinset.filter (fun kk => r kk < r p.1) := by
        rw [Finset.mem_filter]
        exact ⟨List.mem_toFinset.2 hdk, hr p hp d hd hdk⟩
      have hcontra := hsub hd_mem
      rw [Finset.mem_filter] at hcontra
      exact absurd hcontra.2 (lt_irrefl _)
  · intro id
    show ((keys g).toFinset.filter (fun kk => r kk < r id)).card < g.nodes.length + 1
    have h1 : ((keys g).toFinset.filter (fun kk => r kk < r id)).card
        ≤ (keys g).toFinset.card := Finset.card_filter_le _ _
    have h2 : (keys g).toFinset.card ≤ (keys g).length := (keys g).toFinset_card_le
    have h3 : (keys g).length = g.nodes.length := by simp [keys]
    omega

theorem visitFuel_nodes_congr {ρ : Type} (g g' : QuDAGGraph ρ) (h : g.nodes = g'.nodes) :
    ∀ (fuel : Nat) (order : List String) (id : String),
      visitFuel g fuel order id = visitFuel g' fuel order id := by
  intro fuel
  induction fuel with
  | zero => intro order id; rfl
  | succ f ih =>
    intro order id
    have hl : lookupNode g id = lookupNode g' id := by unfold lookupNode; rw [h]
    by_cases ho : id ∈ order
    · simp [visitFuel, ho]
    · cases hlk : lookupNode g' id with
      | none => simp [visitFuel, ho, hl, hlk]
      | some node =>
        simp only [visitFuel, if_neg ho, hl, hlk]
        congr 1
        have hfold : ∀ (ds : List String) (o : List String),
            ds.foldl (fun o x => visitFuel g f o x) o
              = ds.foldl (fun o x => visitFuel g' f o x) o := by
          intro ds
          induction ds with
          | nil => intro o; rfl
          | cons d ds ihd =>
            intro o
            simp only [List.foldl_cons]
            rw [ih o d]
            exact ihd _
        exact hfold node.dependencies order

theorem updateExecutionOrder_recompute {ρ : Type} (g : QuDAGGraph ρ) :
    updateExecutionOrder (recomputeOrder g) = updateExecutionOrder g := by
  have hv : ∀ fuel order id,
      visitFuel (recomputeOrder g) fuel order id = visitFuel g fuel order id :=
    visitFuel_nodes_congr (recomputeOrder g) g rfl
  have h1 : (recomputeOrder g).nodes = g.nodes := rfl
  have h2 : (recomputeOrder g).rootId = g.rootId := rfl
  unfold updateExecutionOrder computeOrderFuel keys
  simp only [hv, h1, h2]

theorem updateExecutionOrder_spec {ρ : Type} (g : QuDAGGraph ρ) (h : Acyclic g) :
    (updateExecutionOrder g).Nodup ∧ Ordered g (updateExecutionOrder g) ∧
    (∀ id, id ∈ updateExecutionOrder g ↔ id ∈ keys g) := by
  obtain ⟨rank, hr, hb⟩ := exists_bounded_rank g h
  exact computeOrderFuel_spec g rank hr (g.nodes.length + 1) hb

/-! ## C4 and C5: topological order, idempotence, coverage -/

/-- C4: for every acyclic graph, after execution-order recomputation,
every in-graph dependency `d` of a node `n` of the graph appears
strictly before `n` in the recomputed `executionOrder`. -/
theorem updateExecutionOrder_topological {ρ : Type} (g : QuDAGGraph ρ) (hacyc : Acyclic g)
    (n : String) (node : QuDAGNode ρ) (hn : lookupNode g n = some node)
    (d : String) (hd : d ∈ node.dependencies) (hdk : d ∈ keys g) :
    (updateExecutionOrder g).indexOf d < (updateExecutionOrder g).indexOf n := by
  obtain ⟨-, hord, hcov⟩ := updateExecutionOrder_spec g hacyc
  exact hord n node ((hcov n).2 (mem_keys_of_lookup hn)) hn d hd hdk

/-- Witness for C4: in the two-node graph where `c` depends on `r`, the
recomputed order places `r` strictly before `c`. -/
theorem updateExecutionOrder_topological_witness :
    (updateExecutionOrder witGraph).indexOf "r" < (updateExecutionOrder witGraph).indexOf "c" :=
  updateExecutionOrder_topological witGraph
    ⟨fun s => if s = "r" then 0 else 1, by unfold DepRank; decide⟩
    "c" witNodeC (by decide) "r" (by decide) (by decide)

/-- C5: recomputation of the execution order is idempotent (it reads
only the node map and root, not the previous order), and for every
acyclic graph the computed sequence contains every node id of the node
map and nothing else, without duplicates.  (On a cyclic graph the
source recursion does not terminate at all — see the termination
theorem.) -/
theorem updateExecutionOrder_idempotent_complete {ρ : Type} (g : QuDAGGraph ρ)
    (hacyc : Acyclic g) :
    updateExecutionOrder (recomputeOrder g) = updateExecutionOrder g
    ∧ (updateExecutionOrder g).Nodup
    ∧ (∀ id, id ∈ updateExecutionOrder g ↔ id ∈ keys g) := by
  obtain ⟨hnd, -, hcov⟩ := updateExecutionOrder_spec g hacyc
  exact ⟨updateExecutionOrder_recompute g, hnd, hcov⟩

/-- Witness for C5 on the concrete acyclic two-node graph. -/
theorem updateExecutionOrder_idempotent_complete_witness :
    updateExecutionOrder (recomputeOrder witGraph) = updateExecutionOrder witGraph
    ∧ (updateExecutionOrder witGraph).Nodup
    ∧ ("c" ∈ updateExecutionOrder witGraph ↔ "c" ∈ keys witGraph) := by
  obtain ⟨h1, h2, h3⟩ := updateExecutionOrder_idempotent_complete witGraph
    ⟨fun s => if s = "r" then 0 else 1, by unfold DepRank; decide⟩
  exact ⟨h1, h2, h3 "c"⟩

/-! ## C10: termination -/

theorem foldVisit_congr {ρ : Type} (g : QuDAGGraph ρ) (u v : Nat) (ds : List String)
    (h : ∀ d ∈ ds, ∀ o, visitFuel g u o d = visitFuel g v o d) :
    ∀ o, ds.foldl (fun o x => visitFuel g u o x) o
      = ds.foldl (fun o x => visitFuel g v o x) o := by
  induction ds with
  | nil => intro o; rfl
  | cons d ds ih =>
    intro o
    simp only [List.foldl_cons]
    rw [h d (List.mem_cons_self d ds) o]
    exact ih (fun x hx o' => h x (List.mem_cons_of_mem d hx) o') _

theorem visitFuel_congr {ρ : Type} (g : QuDAGGraph ρ) (rank : String → Nat)
    (hr : DepRank g rank) :
    ∀ (k : Nat) (id : String), rank id < k → ∀ (f₁ f₂ : Nat), rank id < f₁ → rank id < f₂ →
      ∀ order, visitFuel g f₁ order id = visitFuel g f₂ order id := by
  intro k
  induction k with
  | zero => intro id h; exact absurd h (Nat.not_lt_zero _)
  | succ k ih =>
    intro id hk f₁ f₂ h₁ h₂ order
    cases f₁ with
    | zero => exact absurd h₁ (Nat.not_lt_zero _)
    | succ u =>
      cases f₂ with
      | zero => exact absurd h₂ (Nat.not_lt_zero _)
      | succ v =>
        by_cases ho : id ∈ order
        · simp [visitFuel, ho]
        · cases hl : lookupNode g id with
          | none => simp [visitFuel, ho, hl]
          | some node =>
            simp only [visitFuel, if_neg ho, hl]
            congr 1
            apply foldVisit_congr
            intro d hd o
            by_cases hdk : d ∈ keys g
            · have hrd := hr (id, node) (lookupNode_mem hl) d hd hdk
              exact ih d (lt_of_lt_of_le hrd (Nat.lt_succ_iff.1 hk)) u v
                (lt_of_lt_of_le hrd (Nat.lt_succ_iff.1 h₁))
                (lt_of_lt_of_le hrd (Nat.lt_succ_iff.1 h₂)) o
            · rw [visitFuel_not_key g hdk, visitFuel_not_key g hdk]

theorem computeOrderFuel_stable {ρ : Type} (g : QuDAGGraph ρ) (hacyc : Acyclic g)
    (fuel : Nat) (hf : g.nodes.length + 1 ≤ fuel) :
    computeOrderFuel g fuel = updateExecutionOrder g := by
  obtain ⟨rank, hr, hb⟩ := exists_bounded_rank g hacyc
  have hvc : ∀ id o, visitFuel g fuel o id = visitFuel g (g.nodes.length + 1) o id := by
    intro id o
    exact visitFuel_congr g rank hr (rank id + 1) id (Nat.lt_succ_self _) fuel
      (g.nodes.length + 1) (lt_of_lt_of_le (hb id) hf) (hb id) o
  unfold updateExecutionOrder computeOrderFuel
  rw [hvc g.rootId []]
  exact foldVisit_congr g fuel (g.nodes.length + 1) (keys g) (fun d _ o => hvc d o) _

theorem cycGraph_visit_length :
    ∀ fuel : Nat, (visitFuel cycGraph fuel [] "a").length = fuel
      ∧ (visitFuel cycGraph fuel [] "b").length = fuel := by
  intro fuel
  induction fuel with
  | zero => exact ⟨rfl, rfl⟩
  | succ f ih =>
    have ha : lookupNode cycGraph "a" = some cycNodeA := rfl
    have hb : lookupNode cycGraph "b" = some cycNodeB := rfl
    constructor
    · simp [visitFuel, ha, cycNodeA, ih.2]
    · simp [visitFuel, hb, cycNodeB, ih.1]

/-- C10: the dependency-first `visit` recursion of
`updateExecutionOrder` is well defined on acyclic graphs — beyond the
depth bound `nodes.length + 1` the fuelled recursion has stabilized, so
the unbounded JS recursion terminates there with the same result — and
the acyclicity precondition is essential: on the two-node dependency
cycle the visited check never stops the recursion (the fuelled result
keeps growing with the fuel, one node per level). -/
theorem updateExecutionOrder_termination :
    (∀ (ρ : Type) (g : QuDAGGraph ρ), Acyclic g →
        ∀ fuel, g.nodes.length + 1 ≤ fuel → computeOrderFuel g fuel = updateExecutionOrder g)
    ∧ (∀ fuel : Nat, (visitFuel cycGraph fuel [] "a").length = fuel) :=
  ⟨fun _ g h fuel hf => computeOrderFuel_stable g h fuel hf,
   fun fuel => (cycGraph_visit_length fuel).1⟩

/-- Witness for C10: stabilization at fuel 17 on the acyclic two-node
graph. -/
theorem updateExecutionOrder_termination_witness :
    computeOrderFuel witGraph 17 = updateExecutionOrder witGraph :=
  updateExecutionOrder_termination.1 String witGraph
    ⟨fun s => if s = "r" then 0 else 1, by unfold DepRank; decide⟩ 17 (by decide)

/-! ## C9: node-local failure in executeGraph -/

theorem setNode_setNode {ρ : Type} (ns : List (String × QuDAGNode ρ)) (id : String)
    (a b : QuDAGNode ρ) : setNode (setNode ns id a) id b = setNode ns id b := by
  unfold setNode
  rw [List.map_map]
  apply List.map_congr_left
  intro p _
  by_cases h : p.1 = id <;> simp [h]

theorem lookupAssoc_setNode_self {ρ : Type} (ns : List (String × QuDAGNode ρ)) (id : String)
    (n : QuDAGNode ρ) (h : (lookupAssoc ns id).isSome) :
    lookupAssoc (setNode ns id n) id = some n := by
  induction ns with
  | nil => simp [lookupAssoc] at h
  | cons p ps ih =>
    by_cases hp : p.1 = id
    · have hset : setNode (p :: ps) id n = (id, n) :: setNode ps id n := by
        simp [setNode, hp]
      rw [hset]
      unfold lookupAssoc
      rw [List.find?_cons_of_pos _ (by simp)]
      rfl
    · have hset : setNode (p :: ps) id n = p :: setNode ps id n := by
        simp [setNode, hp]
      rw [hset]
      unfold lookupAssoc at h ⊢
      rw [List.find?_cons_of_neg _ (by simpa using hp)] at h ⊢
      exact ih h

theorem lookupAssoc_setNode_other {ρ : Type} (ns : List (String × QuDAGNode ρ))
    (id y : String) (n : QuDAGNode ρ) (hne : y ≠ id) :
    lookupAssoc (setNode ns id n) y = lookupAssoc ns y := by
  induction ns with
  | nil => rfl
  | cons p ps ih =>
    by_cases hp : p.1 = id
    · have hset : setNode (p :: ps) id n = (id, n) :: setNode ps id n := by
        simp [setNode, hp]
      rw [hset]
      unfold lookupAssoc
      rw [List.find?_cons_of_neg _ (by simpa using fun h => hne h.symm),
        List.find?_cons_of_neg _ (by simp [hp]; exact fun h => hne h.symm)]
      exact ih

    · have hset : setNode (p :: ps) id n = p :: setNode ps id n := by
        simp [setNode, hp]
      rw [hset]
      unfold lookupAssoc
      by_cases hy : p.1 = y
      · rw [List.find?_cons_of_pos _ (by simpa using hy),
          List.find?_cons_of_pos _ (by simpa using hy)]
      · rw [List.find?_cons_of_neg _ (by simpa using hy),
          List.find?_cons_of_neg _ (by simpa using hy)]
        exact ih

theorem execStep_lookup_other {ρ : Type} (qr : Bool) (proc : QuDAGNode ρ → List ρ → Option ρ)
    (fp : ρ → Option String) (st : List (String × QuDAGNode ρ) × List ρ)
    (y nodeId : String) (hne : y ≠ nodeId) :
    lookupAssoc (execStep qr proc fp st nodeId).1 y = lookupAssoc st.1 y := by
  unfold execStep
  cases hl : lookupAssoc st.1 nodeId with
  | none => rfl
  | some node =>
    cases hp : proc node st.2 with
    | none => simp [hp, lookupAssoc_setNode_other _ _ _ _ hne]
    | some r =>
      cases qr with
      | false => simp [hp, lookupAssoc_setNode_other _ _ _ _ hne]
      | true =>
        cases hf : fp r with
        | none => simp [hp, hf, lookupAssoc_setNode_other _ _ _ _ hne]
        | some f => simp [hp, hf, lookupAssoc_setNode_other _ _ _ _ hne]

theorem foldl_execStep_lookup_notin {ρ : Type} (qr : Bool)
    (proc : QuDAGNode ρ → List ρ → Option ρ) (fp : ρ → Option String)
    (post : List String) (x : String) (hx : x ∉ post) :
    ∀ st, lookupAssoc (post.foldl (execStep qr proc fp) st).1 x = lookupAssoc st.1 x := by
  induction post with
  | nil => intro st; rfl
  | cons y ys ih =>
    intro st
    simp only [List.foldl_cons]
    have hxy : x ≠ y := fun h => hx (h ▸ List.mem_cons_self y ys)
    rw [ih (fun h => hx (List.mem_cons_of_mem y h)) _,
      execStep_lookup_other qr proc fp st x y hxy]

theorem execStep_dispatch_fail {ρ : Type} (qr : Bool)
    (proc : QuDAGNode ρ → List ρ → Option ρ) (fp : ρ → Option String)
    (ns : List (String × QuDAGNode ρ)) (ds : List ρ) (x : String) (node : QuDAGNode ρ)
    (hl : lookupAssoc ns x = some node) (hfail : proc node ds = none) :
    execStep qr proc fp (ns, ds) x = (setNode ns x { node with status := "failed" }, ds) := by
  simp [execStep, hl, hfail, setNode_setNode]

theorem execStep_fp_fail {ρ : Type} (proc : QuDAGNode ρ → List ρ → Option ρ)
    (fp : ρ → Option String) (ns : List (String × QuDAGNode ρ)) (ds : List ρ)
    (x : String) (node : QuDAGNode ρ) (r : ρ)
    (hl : lookupAssoc ns x = some node) (hsucc : proc node ds = some r)
    (hfp : fp r = none) :
    execStep true proc fp (ns, ds) x
      = (setNode ns x { node with status := "failed", result := some r }, ds ++ [r]) := by
  simp [execStep, hl, hsucc, hfp, setNode_setNode]

/-- C9 (amended): during `executeGraph`, a failure while processing one
node is node-local and never aborts the walk.  If the per-kind dispatch
of node `x` throws, `x` is marked `failed`, its result is **not**
appended, and execution continues through all remaining nodes from the
same decisions list.  If instead the optional quantum-fingerprinting
step (performed after the result has been recorded) throws, the node is
also marked `failed` and execution likewise continues, but the already
recorded result **remains** in the decisions list — the claim's "its
result is not appended" fails in exactly this corner (see the
counterexample). -/
theorem executeGraph_failure_node_local {ρ : Type} (qr : Bool)
    (proc : QuDAGNode ρ → List ρ → Option ρ) (fp : ρ → Option String)
    (g : QuDAGGraph ρ) (pre post : List String) (x : String)
    (horder : g.executionOrder = pre ++ x :: post) (hxpost : x ∉ post)
    (ns : List (String × QuDAGNode ρ)) (ds : List ρ)
    (hpre : pre.foldl (execStep qr proc fp) (g.nodes, []) = (ns, ds))
    (node : QuDAGNode ρ) (hnode : lookupAssoc ns x = some node) :
    (proc node ds = none →
      executeGraphRun qr proc fp g
          = post.foldl (execStep qr proc fp)
              (setNode ns x { node with status := "failed" }, ds)
        ∧ lookupAssoc (executeGraphRun qr proc fp g).1 x
            = some { node with status := "failed" })
    ∧ (∀ r, proc node ds = some r → qr = true → fp r = none →
      executeGraphRun qr proc fp g
          = post.foldl (execStep qr proc fp)
              (setNode ns x { node with status := "failed", result := some r }, ds ++ [r])
        ∧ lookupAssoc (executeGraphRun qr proc fp g).1 x
            = some { node with status := "failed", result := some r }) := by
  have hrun : executeGraphRun qr proc fp g
      = post.foldl (execStep qr proc fp) (execStep qr proc fp (ns, ds) x) := by
    unfold executeGraphRun
    rw [horder, List.foldl_append, List.foldl_cons, hpre]
  constructor
  · intro hfail
    have hstep := execStep_dispatch_fail qr proc fp ns ds x node hnode hfail
    refine ⟨by rw [hrun, hstep], ?_⟩
    rw [hrun, hstep, foldl_execStep_lookup_notin qr proc fp post x hxpost _]
    exact lookupAssoc_setNode_self ns x _ (by rw [hnode]; rfl)
  · intro r hsucc hqr hfp
    subst hqr
    have hstep := execStep_fp_fail proc fp ns ds x node r hnode hsucc hfp
    refine ⟨by rw [hrun, hstep], ?_⟩
    rw [hrun, hstep, foldl_execStep_lookup_notin true proc fp post x hxpost _]
    exact lookupAssoc_setNode_self ns x _ (by rw [hnode]; rfl)

/-- C9 counterexample: with fingerprinting active, a fingerprint failure
after a successful dispatch leaves the node marked `failed` while its
result **is** in the returned decisions list, contradicting the claim's
"its result is not appended to the decisions list". -/
theorem executeGraph_fingerprint_failure_appends :
    (lookupAssoc (executeGraphRun true (fun _ _ => some "res") (fun _ => none) exeGraph).1
        "x").map (fun n => n.status) = some "failed"
    ∧ (executeGraphRun true (fun _ _ => some "res") (fun _ => none) exeGraph).2 = ["res"] :=
  ⟨rfl, rfl⟩

/-- Witness for C9 on a two-node graph whose first node's dispatch
fails: the node is marked `failed`, the decisions list is unchanged, and
the walk continues with the remaining node. -/
theorem executeGraph_failure_node_local_witness :
    executeGraphRun false (fun _ _ => none) (fun _ => none) exeGraph2
        = ["y"].foldl (execStep false (fun _ _ => none) (fun _ => none))
            (setNode exeGraph2.nodes "x" { exeNode with status := "failed" }, [])
    ∧ lookupAssoc (executeGraphRun false (fun _ _ => none) (fun _ => none) exeGraph2).1 "x"
        = some { exeNode with status := "failed" } :=
  (executeGraph_failure_node_local false (fun _ _ => none) (fun _ => none) exeGraph2
      [] ["y"] "x" rfl (by decide) exeGraph2.nodes [] rfl exeNode (by decide)).1 rfl

end QuDAG
